import Mathlib

/- Shallow embedding of MarcRuble/experiment-evaluation (src/evaluation.py and
   src/exploration.py).  A dataframe is a list of rows; a row is an association
   list from column names to cell values.  Numeric cells are rationals.  The
   external statistical routines (pingouin.wilcoxon, pingouin.pairwise_ttests)
   are parameters of the embedded functions. -/

/- A cell value: categorical/string or numeric. -/
inductive Val where
  | str (s : String)
  | num (q : ℚ)
deriving DecidableEq

abbrev Row := List (String × Val)

/- Value of a column in a row (total model of row[column]). -/
def cellD (r : Row) (c : String) : Val := (r.lookup c).getD (Val.str "")

/- Duck-typed condition parameter of the Python code: a falsy sentinel (None or
   False), a single (column, value) pair, or a list of such pairs
   (src/evaluation.py, __get_condition, lines 509-520). -/
inductive Condition where
  | noCond
  | single (c : String) (v : Val)
  | conj (cs : List (String × Val))
deriving DecidableEq

/- The pandas selection data[data[column] == value]. -/
def filterEq (data : List Row) (c : String) (v : Val) : List Row :=
  data.filter (fun r => cellD r c == v)

/- Embeds __get_condition: falsy condition is the identity, a list is applied
   by iteratively narrowing the row set. -/
def get_condition (data : List Row) : Condition → List Row
  | Condition.noCond => data
  | Condition.single c v => filterEq data c v
  | Condition.conj cs => cs.foldl (fun d pr => filterEq d pr.1 pr.2) data

/- First-occurrence-order deduplication, the semantics of pd.unique.
   The accumulator holds the values already emitted. -/
def uniqueFirstAux (seen : List Val) : List Val → List Val
  | [] => []
  | x :: xs =>
    if x ∈ seen then uniqueFirstAux seen xs
    else x :: uniqueFirstAux (x :: seen) xs

def uniqueFirst (l : List Val) : List Val := uniqueFirstAux [] l

/- Embeds __possible_values: pd.unique(self.df[column]), first-occurrence
   order over the held (unfiltered) dataframe. -/
def possible_values (df : List Row) (column : String) : List Val :=
  uniqueFirst (df.map (fun r => cellD r column))

/- The DatasetEvaluation object: held dataframe, alpha, and the saved group
   ordering table (src/evaluation.py lines 17-22). -/
structure DatasetEvaluation where
  df : List Row
  alpha : ℚ
  order_table : List (String × List Val)
deriving DecidableEq

/- Embeds __ordered_values (lines 498-502): a saved order wins, otherwise
   the distinct values of the column of the held dataframe self.df. -/
def ordered_values (self : DatasetEvaluation) (column : String) : List Val :=
  match self.order_table.lookup column with
  | some l => l
  | none => possible_values self.df column

/- Embeds __apply_bonferroni (lines 545-546): min(p*num, 1). -/
def apply_bonferroni (p : ℚ) (num : ℕ) : ℚ := min (p * (num : ℚ)) 1

/- Python round(): round half to even (ties only matter at exact halves,
   which none of the verified properties touch). -/
def roundHalfEven (q : ℚ) : ℤ :=
  let f := ⌊q⌋
  let r := q - (f : ℚ)
  if r < 1/2 then f
  else if 1/2 < r then f + 1
  else if f % 2 = 0 then f else f + 1

/- Python round(q, n). -/
def roundTo (q : ℚ) (n : ℕ) : ℚ := ((roundHalfEven (q * 10 ^ n) : ℤ) : ℚ) / 10 ^ n

/- Strips trailing zero digits of a fractional part, keeping at least one
   digit, like Python str() of a float. -/
def fracTrim (s : List Char) : List Char :=
  let r := s.reverse.dropWhile (fun c => c == '0')
  if r.isEmpty then ['0'] else r.reverse

/- Decimal rendering of a rational whose denominator divides 10^5
   (the outputs of roundTo), mirroring Python str() on such floats. -/
def ratRepr (q : ℚ) : String :=
  let sign := if q < 0 then "-" else ""
  let a := |q|
  let ip : ℕ := (⌊a⌋).toNat
  let frDigits : ℕ := ((a - ((⌊a⌋ : ℤ) : ℚ)) * 100000).num.toNat
  let ds := (toString (100000 + frDigits)).toList.drop 1
  sign ++ toString ip ++ "." ++ String.mk (fracTrim ds)

/- Embeds __check_p (lines 550-560): strings pass through unchanged, numbers
   are rounded, rendered and star-annotated by the <=-bounded categories. -/
def check_p : Val → String
  | Val.str s => s
  | Val.num p =>
    if |p| ≤ 1/1000 then ratRepr (roundTo p 5) ++ " ***"
    else if |p| ≤ 1/100 then ratRepr (roundTo p 3) ++ " **"
    else if |p| ≤ 1/20 then ratRepr (roundTo p 3) ++ " *"
    else ratRepr (roundTo p 5)

/- Number of stars an annotated value carries (the rendered number itself
   never contains an asterisk). -/
def starsOf (s : String) : ℕ := (s.toList.filter (fun c => c == '*')).length

/- One inner-loop step of the pair collection in wilcoxon_test (lines 337-341):
   append (g1, g2) when g1 != g2 and the swapped pair was not collected yet. -/
def innerStep (g1 : Val) (acc : List (Val × Val)) (g2 : Val) : List (Val × Val) :=
  if g1 ≠ g2 ∧ (g2, g1) ∉ acc then acc ++ [(g1, g2)] else acc

/- Embeds the double loop collecting all pairs to compare (lines 337-341). -/
def toCompare (groups : List Val) : List (Val × Val) :=
  groups.foldl (fun acc g1 => groups.foldl (innerStep g1) acc) []

/- Embeds the baseline special treatment (lines 324-326): drop the baseline
   from the group list and append it at the end. -/
def movedToEnd (groups : List Val) (b : Val) : List Val :=
  groups.filter (fun x => x != b) ++ [b]

/- The pairs surviving the skip in the baseline branch (lines 371-374):
   only pairs whose second member is the baseline are tested. -/
def survivors (pairs : List (Val × Val)) (b : Val) : List (Val × Val) :=
  pairs.filter (fun pr => pr.2 == b)

/- The series df[df[group_col]==g][value_col] handed to the external test. -/
def seriesFor (df : List Row) (group_col : String) (g : Val) (value_col : String) :
    List Val :=
  (filterEq df group_col g).map (fun r => cellD r value_col)

/- Outputs of one external pingouin.wilcoxon call read by the code. -/
structure WStats where
  W : ℚ
  p : ℚ
  RBC : ℚ
  CLES : ℚ
deriving DecidableEq

/- The flat result layout of the no-baseline branch (line 330). -/
structure PairTable where
  A : List Val
  B : List Val
  W : List ℚ
  p : List String
  bonf : List String
  RBC : List ℚ
  CLES : List ℚ
deriving DecidableEq

/- The two layouts of the assembled comparison result table. -/
inductive ResTable where
  | pairFlat (t : PairTable)
  | byGroup (results : List (Val × List Val)) (cols : List Val)
deriving DecidableEq

/- What one call of wilcoxon_test produces: the assembled df_res and the
   Python return value of the function. -/
structure WilcoxonOutcome where
  df_res : ResTable
  ret : Option ResTable
deriving DecidableEq

/- Python dict assignment d[k] = v on an insertion-ordered dict. -/
def dictSet (d : List (Val × List Val)) (k : Val) (v : List Val) :
    List (Val × List Val) :=
  match d with
  | [] => [(k, v)]
  | (k', w) :: t => if k' = k then (k, v) :: t else (k', w) :: dictSet t k v

/- Python dict update d[k] = f d[k]; a no-op on a missing key (the code only
   ever updates keys it has initialised). -/
def dictUpd (d : List (Val × List Val)) (k : Val) (f : List Val → List Val) :
    List (Val × List Val) :=
  match d with
  | [] => []
  | (k', w) :: t => if k' = k then (k', f w) :: t else (k', w) :: dictUpd t k f

/- Embeds wilcoxon_test (src/evaluation.py lines 315-404).  The external
   pingouin.wilcoxon routine is the parameter ext.  The function body builds
   df_res, optionally displays and saves it, and ends without a return
   statement, so its Python return value is None. -/
def wilcoxon_test (ext : List Val → List Val → WStats) (self : DatasetEvaluation)
    (value_col group_col : String) (condition : Condition)
    (baseline : Option Val) : WilcoxonOutcome :=
  let df := get_condition self.df condition
  let groups0 := ordered_values self group_col
  let groups := match baseline with
    | some b => movedToEnd groups0 b
    | none => groups0
  let to_compare := toCompare groups
  match baseline with
  | none =>
    let statsFor := fun (pr : Val × Val) =>
      ext (seriesFor df group_col pr.1 value_col) (seriesFor df group_col pr.2 value_col)
    let t : PairTable :=
      { A := to_compare.map (fun pr => pr.1)
        B := to_compare.map (fun pr => pr.2)
        W := to_compare.map (fun pr => (statsFor pr).W)
        p := to_compare.map (fun pr => check_p (Val.num (statsFor pr).p))
        bonf := to_compare.map (fun pr =>
          check_p (Val.num (apply_bonferroni (statsFor pr).p to_compare.length)))
        RBC := to_compare.map (fun pr => roundTo (statsFor pr).RBC 5)
        CLES := to_compare.map (fun pr => roundTo (statsFor pr).CLES 5) }
    { df_res := ResTable.pairFlat t, ret := none }
  | some b =>
    let init := groups.foldl (fun d g => dictSet d g []) []
    let surv := survivors to_compare b
    let res := surv.foldl (fun d pr =>
      let st := ext (seriesFor df group_col pr.1 value_col)
        (seriesFor df group_col pr.2 value_col)
      dictUpd d pr.1 (fun l => l ++
        [Val.str (check_p (Val.num st.p)),
         Val.str (check_p (Val.num (apply_bonferroni st.p (groups.length - 1)))),
         Val.num st.W,
         Val.num (roundTo st.RBC 5)])) init
    { df_res := ResTable.byGroup res groups.dropLast, ret := none }

/- One row of the long-format table returned by pingouin.pairwise_ttests,
   with the columns the code reads. -/
structure TRow where
  A : Val
  B : Val
  T : ℚ
  p_unc : ℚ
  cohen : ℚ
deriving DecidableEq

/- The subject argument handed to pairwise_ttests at line 444 of
   src/evaluation.py: the string literal 'Participant'; the subject_col
   parameter of paired_t_test is not used there. -/
def t_test_subject_arg (subject_col : String) : String := "Participant"

/- The effect-size sign convention at lines 462-467: cohen's d is negated
   exactly when column A of the row is the baseline. -/
def t_row_d (b : Val) (A : Val) (cohen : ℚ) : ℚ := if A = b then -cohen else cohen

/- The two layouts of the paired_t_test result. -/
inductive TResTable where
  | stat (rows : List TRow)
  | byGroup (results : List (Val × List Val)) (cols : List Val)
deriving DecidableEq

structure TOutcome where
  df_res : TResTable
  ret : Option TResTable
deriving DecidableEq

/- Embeds paired_t_test (src/evaluation.py lines 430-489).  The external
   pingouin.pairwise_ttests routine is the parameter ext, receiving the
   filtered dataframe and the dv/within/subject column names.  The body ends
   without a return statement, so the Python return value is None. -/
def paired_t_test (ext : List Row → String → String → String → List TRow)
    (self : DatasetEvaluation) (value_col group_col subject_col : String)
    (condition : Condition) (baseline : Option Val) : TOutcome :=
  let df := get_condition self.df condition
  let groups0 := ordered_values self group_col
  let groups := match baseline with
    | some b => movedToEnd groups0 b
    | none => groups0
  let stat := ext df value_col group_col (t_test_subject_arg subject_col)
  match baseline with
  | none => { df_res := TResTable.stat stat, ret := none }
  | some b =>
    let init := groups.dropLast.foldl (fun d g => dictSet d g []) []
    let res := stat.foldl (fun d row =>
      if row.A = b ∨ row.B = b then
        let c := if row.A ≠ b then row.A else row.B
        let d0 := t_row_d b row.A row.cohen
        dictUpd d c (fun l => l ++
          [Val.str (check_p (Val.num row.p_unc)),
           Val.str (check_p (Val.num (apply_bonferroni row.p_unc (groups.length - 1)))),
           Val.num (roundTo row.T 5),
           Val.num (roundTo d0 5)])
      else d) init
    { df_res := TResTable.byGroup res groups.dropLast, ret := none }

/- Projections used to state properties of the assembled tables. -/
def tableA : ResTable → List Val
  | ResTable.pairFlat t => t.A
  | ResTable.byGroup _ _ => []

def byGroupEntries : ResTable → List (Val × List Val)
  | ResTable.pairFlat _ => []
  | ResTable.byGroup r _ => r

/- Series.replace(dict) of pandas: map every value through the dict. -/
def seriesReplaceVals (s : List Val) (m : List (Val × Val)) : List Val :=
  s.map (fun v => (m.lookup v).getD v)

def getColumn (df : List Row) (c : String) : List Val := df.map (fun r => cellD r c)

def rowSet (r : Row) (c : String) (v : Val) : Row :=
  match r with
  | [] => [(c, v)]
  | (c', w) :: t => if c' = c then (c, v) :: t else (c', w) :: rowSet t c v

def setColumn (df : List Row) (c : String) (vals : List Val) : List Row :=
  (df.zip vals).map (fun rv => rowSet rv.1 c rv.2)

/- Embeds DatasetEvaluation.replace (src/evaluation.py lines 34-38):
   self.df[column].replace(dict) computes a replaced series without inplace
   and without assigning it back, so the result is discarded. -/
def DatasetEvaluation.replace (self : DatasetEvaluation) (column : String)
    (dict : List (Val × Val)) : DatasetEvaluation :=
  let _discarded := seriesReplaceVals (getColumn self.df column) dict
  self

/- The DatasetExploration object (src/exploration.py lines 10-15). -/
structure DatasetExploration where
  df : List Row
  order_table : List (String × List Val)
  color_table : List (String × List String)
deriving DecidableEq

/- Embeds DatasetExploration.replace (src/exploration.py lines 27-31):
   self.df[column].replace(dict, inplace=True) rewrites the column in place. -/
def DatasetExploration.replace (self : DatasetExploration) (column : String)
    (dict : List (Val × Val)) : DatasetExploration :=
  let replaced := seriesReplaceVals (getColumn self.df column) dict
  { self with df := setColumn self.df column replaced }

/- Specification view of group enumeration for comparison with the code:
   the spec says groups are the distinct values of the column in
   first-occurrence order within the dataset AFTER the condition filter. -/
def specOrderedGroups (self : DatasetEvaluation) (condition : Condition)
    (column : String) : List Val :=
  uniqueFirst ((get_condition self.df condition).map (fun r => cellD r column))

/- Proof-support view of the pair enumeration: all pairs (l[i], l[j]) with
   i < j, in the order the double loop produces them. -/
def allPairsLt : List Val → List (Val × Val)
  | [] => []
  | g :: gs => gs.map (fun g2 => (g, g2)) ++ allPairsLt gs

/- Pairs contributed by an already-processed prefix of the outer loop:
   each processed element paired with everything after it in pre ++ todo. -/
def donePairs : List Val → List Val → List (Val × Val)
  | [], _ => []
  | p :: ps, todo => (ps ++ todo).map (fun b2 => (p, b2)) ++ donePairs ps todo

/- The pairs one inner pass for g1 appends, relative to the accumulator it
   started from (within a pass the swapped-pair check only sees that start). -/
def passAdds (g1 : Val) (acc : List (Val × Val)) : List Val → List (Val × Val)
  | [] => []
  | g2 :: t =>
    if g1 ≠ g2 ∧ (g2, g1) ∉ acc then (g1, g2) :: passAdds g1 acc t
    else passAdds g1 acc t

/- Concrete fixtures used for counterexamples and witnesses. -/
def vS : Val := Val.str "S"
def vM : Val := Val.str "M"
def vL : Val := Val.str "L"
def vX : Val := Val.str "X"

def extDummy : List Val → List Val → WStats :=
  fun _ _ => { W := 0, p := 1, RBC := 0, CLES := 0 }

def extTDummy : List Row → String → String → String → List TRow :=
  fun _ _ _ _ => []

def exSelf : DatasetEvaluation :=
  { df := [[("size", vS), ("score", Val.num 1)], [("size", vM), ("score", Val.num 2)]],
    alpha := 1/20, order_table := [] }

def exSelf5 : DatasetEvaluation :=
  { df := [[("size", vS), ("score", Val.num 1)], [("size", vM), ("score", Val.num 2)],
           [("size", vL), ("score", Val.num 3)]],
    alpha := 1/20, order_table := [] }

def cond3 : Condition := Condition.single "c" (Val.num 1)

def exSelf3 : DatasetEvaluation :=
  { df := [[("grp", Val.str "B"), ("c", Val.num 0), ("v", Val.num 1)],
           [("grp", Val.str "A"), ("c", Val.num 1), ("v", Val.num 2)],
           [("grp", Val.str "B"), ("c", Val.num 1), ("v", Val.num 3)]],
    alpha := 1/20, order_table := [] }

def probeRow : TRow := { A := Val.str "g1", B := Val.str "g2", T := 0, p_unc := 1, cohen := 0 }

/- An external pairwise routine that reacts to the subject column it is
   handed: it returns a row exactly when that column is the string ID. -/
def extProbe : List Row → String → String → String → List TRow :=
  fun _ _ _ subj => if subj = "ID" then [probeRow] else []

def exExpl : DatasetExploration :=
  { df := [[("grp", Val.str "A")]], order_table := [], color_table := [] }

/- Helper lemmas about first-occurrence deduplication. -/
theorem mem_uniqueFirstAux (v : Val) :
    ∀ (l seen : List Val), v ∈ uniqueFirstAux seen l ↔ v ∈ l ∧ v ∉ seen := by
  intro l
  induction l with
  | nil => intro seen; simp [uniqueFirstAux]
  | cons x xs ih =>
    intro seen
    by_cases hx : x ∈ seen
    · simp only [uniqueFirstAux, if_pos hx, ih, List.mem_cons]
      constructor
      · rintro ⟨h1, h2⟩; exact ⟨Or.inr h1, h2⟩
      · rintro ⟨h1 | h1, h2⟩
        · exact absurd (h1 ▸ hx) h2
        · exact ⟨h1, h2⟩
    · simp only [uniqueFirstAux, if_neg hx, List.mem_cons, ih]
      constructor
      · rintro (rfl | ⟨h1, h2⟩)
        · exact ⟨Or.inl rfl, hx⟩
        · push_neg at h2; exact ⟨Or.inr h1, h2.2⟩
      · rintro ⟨h1 | h1, h2⟩
        · exact Or.inl h1
        · by_cases hvx : v = x
          · exact Or.inl hvx
          · refine Or.inr ⟨h1, ?_⟩
            push_neg
            exact ⟨hvx, h2⟩

theorem nodup_uniqueFirstAux : ∀ (l seen : List Val), (uniqueFirstAux seen l).Nodup := by
  intro l
  induction l with
  | nil => intro seen; simp [uniqueFirstAux]
  | cons x xs ih =>
    intro seen
    by_cases hx : x ∈ seen
    · simpa [uniqueFirstAux, if_pos hx] using ih seen
    · simp only [uniqueFirstAux, if_neg hx]
      refine List.nodup_cons.mpr ⟨?_, ih _⟩
      rw [mem_uniqueFirstAux]
      rintro ⟨_, h2⟩
      exact h2 (List.mem_cons_self x seen)

theorem mem_uniqueFirst (v : Val) (l : List Val) : v ∈ uniqueFirst l ↔ v ∈ l := by
  unfold uniqueFirst
  rw [mem_uniqueFirstAux]
  simp

theorem uniqueFirst_nodup (l : List Val) : (uniqueFirst l).Nodup :=
  nodup_uniqueFirstAux l []

/- Characterisation of one inner pass of the pair-collection loop: relative to
   a start accumulator acc, where every pair appended beyond acc by the caller
   (extra) has first component g1, the pass appends exactly passAdds g1 acc. -/
theorem foldl_innerStep (g1 : Val) :
    ∀ (L : List Val) (acc extra : List (Val × Val)),
      (∀ q ∈ extra, q.1 = g1) →
      L.foldl (innerStep g1) (acc ++ extra) = acc ++ (extra ++ passAdds g1 acc L) := by
  intro L
  induction L with
  | nil => intro acc extra hex; simp [passAdds]
  | cons h t ih =>
    intro acc extra hex
    show List.foldl (innerStep g1) (innerStep g1 (acc ++ extra) h) t = _
    by_cases hc : g1 ≠ h ∧ (h, g1) ∉ acc
    · have hmem : (h, g1) ∉ acc ++ extra := by
        intro hm
        rcases List.mem_append.mp hm with hm | hm
        · exact hc.2 hm
        · exact hc.1 ((hex _ hm).symm)
      have hstep : innerStep g1 (acc ++ extra) h = acc ++ (extra ++ [(g1, h)]) := by
        rw [innerStep, if_pos ⟨hc.1, hmem⟩, List.append_assoc]
      rw [hstep, ih acc (extra ++ [(g1, h)]) ?_]
      · rw [passAdds, if_pos hc]
        simp
      · intro q hq
        rcases List.mem_append.mp hq with hq | hq
        · exact hex q hq
        · simp only [List.mem_singleton] at hq
          subst hq
          rfl
    · have hcc : ¬(g1 ≠ h ∧ (h, g1) ∉ acc ++ extra) := by
        intro hc2
        exact hc ⟨hc2.1, fun hm => hc2.2 (List.mem_append.mpr (Or.inl hm))⟩
      have hstep : innerStep g1 (acc ++ extra) h = acc ++ extra := by
        rw [innerStep, if_neg hcc]
      rw [hstep, ih acc extra hex, passAdds, if_neg hc]

theorem passAdds_append (g1 : Val) (acc : List (Val × Val)) :
    ∀ l1 l2 : List Val,
      passAdds g1 acc (l1 ++ l2) = passAdds g1 acc l1 ++ passAdds g1 acc l2 := by
  intro l1 l2
  induction l1 with
  | nil => simp [passAdds]
  | cons x xs ih =>
    show passAdds g1 acc (x :: (xs ++ l2)) = passAdds g1 acc (x :: xs) ++ passAdds g1 acc l2
    by_cases hc : g1 ≠ x ∧ (x, g1) ∉ acc
    · rw [passAdds, if_pos hc, passAdds, if_pos hc, List.cons_append, ih]
    · rw [passAdds, if_neg hc, passAdds, if_neg hc, ih]

theorem passAdds_eq_nil (g1 : Val) (acc : List (Val × Val)) :
    ∀ L : List Val, (∀ x ∈ L, ¬(g1 ≠ x ∧ (x, g1) ∉ acc)) → passAdds g1 acc L = [] := by
  intro L
  induction L with
  | nil => intro _; rfl
  | cons x xs ih =>
    intro hall
    rw [passAdds, if_neg (hall x (List.mem_cons_self x xs))]
    exact ih (fun y hy => hall y (List.mem_cons_of_mem x hy))

theorem passAdds_eq_map (g1 : Val) (acc : List (Val × Val)) :
    ∀ L : List Val, (∀ x ∈ L, g1 ≠ x ∧ (x, g1) ∉ acc) →
      passAdds g1 acc L = L.map (fun g2 => (g1, g2)) := by
  intro L
  induction L with
  | nil => intro _; rfl
  | cons x xs ih =>
    intro hall
    rw [passAdds, if_pos (hall x (List.mem_cons_self x xs)), List.map_cons]
    rw [ih (fun y hy => hall y (List.mem_cons_of_mem x hy))]

theorem mem_donePairs_fst :
    ∀ (pre todo : List Val) (q : Val × Val), q ∈ donePairs pre todo → q.1 ∈ pre := by
  intro pre
  induction pre with
  | nil => intro todo q hq; cases hq
  | cons p ps ih =>
    intro todo q hq
    rcases List.mem_append.mp hq with hq | hq
    · rcases List.mem_map.mp hq with ⟨b2, _, hb2⟩
      subst hb2
      exact List.mem_cons_self p ps
    · exact List.mem_cons_of_mem p (ih todo q hq)

theorem mem_donePairs (p b2 : Val) :
    ∀ (pre todo : List Val), p ∈ pre → b2 ∈ todo → (p, b2) ∈ donePairs pre todo := by
  intro pre
  induction pre with
  | nil => intro todo hp _; cases hp
  | cons q qs ih =>
    intro todo hp hb
    rcases List.mem_cons.mp hp with rfl | hp
    · exact List.mem_append.mpr (Or.inl (List.mem_map.mpr
        ⟨b2, List.mem_append.mpr (Or.inr hb), rfl⟩))
    · exact List.mem_append.mpr (Or.inr (ih todo hp hb))

theorem donePairs_step :
    ∀ (pre : List Val) (t : Val) (ts : List Val),
      donePairs pre (t :: ts) ++ ts.map (fun b2 => (t, b2)) = donePairs (pre ++ [t]) ts := by
  intro pre
  induction pre with
  | nil => intro t ts; simp [donePairs]
  | cons p ps ih =>
    intro t ts
    show ((ps ++ (t :: ts)).map (fun b2 => (p, b2)) ++ donePairs ps (t :: ts))
        ++ ts.map (fun b2 => (t, b2)) = _
    rw [List.append_assoc, ih t ts]
    show _ = ((ps ++ [t]) ++ ts).map (fun b2 => (p, b2)) ++ donePairs (ps ++ [t]) ts
    rw [List.append_assoc, List.singleton_append]

theorem donePairs_nil : ∀ l : List Val, donePairs l [] = allPairsLt l := by
  intro l
  induction l with
  | nil => rfl
  | cons g gs ih => simp [donePairs, allPairsLt, ih]

/- The outer loop of the pair collection, tracked by the processed prefix:
   starting from the pairs contributed by pre, folding the remaining todo
   yields the pairs of the whole (duplicate-free) list. -/
theorem outer_loop (full : List Val) (hnd : full.Nodup) :
    ∀ (todo pre : List Val), full = pre ++ todo →
      todo.foldl (fun acc g1 => full.foldl (innerStep g1) acc) (donePairs pre todo)
        = donePairs full [] := by
  intro todo
  induction todo with
  | nil =>
    intro pre hfull
    rw [List.append_nil] at hfull
    subst hfull
    rfl
  | cons t ts ih =>
    intro pre hfull
    have hsplit := List.nodup_append.mp (hfull ▸ hnd)
    have htts : t ∉ ts := (List.nodup_cons.mp hsplit.2.1).1
    have hdisj : ∀ a ∈ pre, a ∉ t :: ts := fun a ha hmem => hsplit.2.2 ha hmem
    show ts.foldl _ (full.foldl (innerStep t) (donePairs pre (t :: ts))) = _
    have hinner : full.foldl (innerStep t) (donePairs pre (t :: ts))
        = donePairs (pre ++ [t]) ts := by
      have h0 := foldl_innerStep t full (donePairs pre (t :: ts)) []
        (by intro q hq; cases hq)
      rw [List.append_nil, List.nil_append] at h0
      rw [h0, hfull, passAdds_append]
      have hpre : passAdds t (donePairs pre (t :: ts)) pre = [] := by
        apply passAdds_eq_nil
        intro x hx hcontra
        exact hcontra.2 (mem_donePairs x t pre (t :: ts) hx (List.mem_cons_self t ts))
      have hhead : passAdds t (donePairs pre (t :: ts)) (t :: ts)
          = passAdds t (donePairs pre (t :: ts)) ts := by
        rw [passAdds, if_neg]
        intro hcontra
        exact hcontra.1 rfl
      have htail : passAdds t (donePairs pre (t :: ts)) ts
          = ts.map (fun b2 => (t, b2)) := by
        apply passAdds_eq_map
        intro x hx
        constructor
        · intro hteq; exact htts (hteq ▸ hx)
        · intro hmem
          have hfst := mem_donePairs_fst pre (t :: ts) (x, t) hmem
          exact hdisj x hfst (List.mem_cons_of_mem t hx)
      rw [hpre, hhead, htail, List.nil_append]
      exact donePairs_step pre t ts
    rw [hinner]
    exact ih (pre ++ [t]) (by rw [hfull, List.append_assoc]; rfl)

/- For a duplicate-free group list, the collected pairs are exactly the
   index-increasing pairs. -/
theorem toCompare_eq_allPairsLt (groups : List Val) (hnd : groups.Nodup) :
    toCompare groups = allPairsLt groups := by
  have h0 := outer_loop groups hnd groups [] rfl
  unfold toCompare
  have h1 : donePairs ([] : List Val) groups = [] := rfl
  rw [← h1, h0, donePairs_nil]


theorem two_mul_length_allPairsLt :
    ∀ l : List Val, 2 * (allPairsLt l).length = l.length * (l.length - 1) := by
  intro l
  induction l with
  | nil => rfl
  | cons g gs ih =>
    have hn : ∀ n : ℕ, 2 * n + n * (n - 1) = (n + 1) * (n + 1 - 1) := by
      intro n
      cases n with
      | zero => rfl
      | succ k =>
        simp only [Nat.add_sub_cancel]
        ring
    show 2 * (gs.map (fun g2 => (g, g2)) ++ allPairsLt gs).length = _
    rw [List.length_append, List.length_map, Nat.mul_add, ih, List.length_cons]
    exact hn gs.length

theorem filter_ne_of_not_mem (b : Val) :
    ∀ l : List Val, b ∉ l → l.filter (fun x => x != b) = l := by
  intro l
  induction l with
  | nil => intro _; rfl
  | cons x xs ih =>
    intro hb
    have hxb : (x != b) = true := by
      simp only [bne_iff_ne, ne_eq]
      intro h
      exact hb (h ▸ List.mem_cons_self x xs)
    simp only [List.filter_cons]
    rw [if_pos hxb, ih (fun hmem => hb (List.mem_cons_of_mem x hmem))]

theorem length_filter_ne (b : Val) :
    ∀ groups : List Val, groups.Nodup → b ∈ groups →
      (groups.filter (fun x => x != b)).length = groups.length - 1 := by
  intro groups
  induction groups with
  | nil => intro _ hb; cases hb
  | cons g gs ih =>
    intro hnd hb
    have hgs : g ∉ gs := (List.nodup_cons.mp hnd).1
    by_cases hgb : g = b
    · subst hgb
      rw [List.filter_cons_of_neg (by simp), filter_ne_of_not_mem g gs hgs]
      simp
    · have hbgs : b ∈ gs := by
        rcases List.mem_cons.mp hb with h | h
        · exact absurd h.symm hgb
        · exact h
      have hglen : 1 ≤ gs.length := List.length_pos.mpr (List.ne_nil_of_mem hbgs)
      have hgb2 : (g != b) = true := by simpa [bne_iff_ne] using hgb
      simp only [List.filter_cons]
      rw [if_pos hgb2, List.length_cons,
        ih (List.nodup_cons.mp hnd).2 hbgs, List.length_cons]
      omega

theorem nodup_movedToEnd (groups : List Val) (b : Val) (hnd : groups.Nodup) :
    (movedToEnd groups b).Nodup := by
  unfold movedToEnd
  rw [List.nodup_append]
  refine ⟨hnd.filter _, List.nodup_singleton b, ?_⟩
  intro a ha hmem
  simp only [List.mem_singleton] at hmem
  subst hmem
  have := (List.mem_filter.mp ha).2
  simp at this

theorem not_mem_filter_ne_self (groups : List Val) (b : Val) :
    b ∉ groups.filter (fun x => x != b) := by
  intro hmem
  have := (List.mem_filter.mp hmem).2
  simp at this

theorem filter_snd_map (x b : Val) :
    ∀ ys : List Val,
      List.filter (fun pr => pr.2 == b) (ys.map (fun g2 => (x, g2)))
        = (ys.filter (fun y => y == b)).map (fun y => (x, y)) := by
  intro ys
  induction ys with
  | nil => rfl
  | cons y t ih =>
    by_cases hyb : y = b
    · have h1 : ((x, y).2 == b) = true := by simp [hyb]
      have h2 : (y == b) = true := by simp [hyb]
      simp only [List.map_cons, List.filter_cons]
      rw [if_pos h1, if_pos h2, List.map_cons, ih]
    · have h1 : ¬ ((x, y).2 == b) = true := by simp [hyb]
      have h2 : ¬ (y == b) = true := by simp [hyb]
      simp only [List.map_cons, List.filter_cons]
      rw [if_neg h1, if_neg h2, ih]

theorem filter_eq_b_of_not_mem (b : Val) :
    ∀ ys : List Val, b ∉ ys → ys.filter (fun y => y == b) = [] := by
  intro ys
  induction ys with
  | nil => intro _; rfl
  | cons y t ih =>
    intro hb
    have hyb : ¬ (y == b) = true := by
      simp only [beq_iff_eq]
      intro h
      exact hb (h ▸ List.mem_cons_self y t)
    simp only [List.filter_cons]
    rw [if_neg hyb, ih (fun hmem => hb (List.mem_cons_of_mem y hmem))]

theorem survivors_allPairsLt_append (b : Val) :
    ∀ xs : List Val, b ∉ xs →
      survivors (allPairsLt (xs ++ [b])) b = xs.map (fun g => (g, b)) := by
  intro xs
  induction xs with
  | nil => intro _; rfl
  | cons x t ih =>
    intro hb
    have hbt : b ∉ t := fun h => hb (List.mem_cons_of_mem x h)
    show survivors ((t ++ [b]).map (fun g2 => (x, g2)) ++ allPairsLt (t ++ [b])) b
        = (x :: t).map (fun g => (g, b))
    unfold survivors
    rw [List.filter_append, filter_snd_map]
    have hfb : List.filter (fun y => y == b) (t ++ [b]) = [b] := by
      rw [List.filter_append, filter_eq_b_of_not_mem b t hbt, List.nil_append]
      have h2 : (b == b) = true := by simp
      simp only [List.filter_cons]
      rw [if_pos h2, List.filter_nil]
    rw [hfb]
    have h3 := ih hbt
    unfold survivors at h3
    rw [h3]
    rfl

/- The pipeline of the baseline branch of wilcoxon_test: what survives the
   skip is exactly every remaining group paired with the baseline. -/
theorem survivors_toCompare_movedToEnd (groups : List Val) (b : Val)
    (hnd : groups.Nodup) :
    survivors (toCompare (movedToEnd groups b)) b
      = (groups.filter (fun x => x != b)).map (fun g => (g, b)) := by
  have hnd2 := nodup_movedToEnd groups b hnd
  rw [movedToEnd] at hnd2 ⊢
  rw [toCompare_eq_allPairsLt _ hnd2,
    survivors_allPairsLt_append b _ (not_mem_filter_ne_self groups b)]

/-- C1: the claim says both pairwise comparators return the assembled
comparison result table to the caller.  The code builds df_res but both
function bodies end without a return statement, so the Python return value
is None in every branch; evaluated here at a concrete successful call, with
and without a baseline, for wilcoxon_test and for paired_t_test. -/
theorem c1_no_return :
    (wilcoxon_test extDummy exSelf "score" "size" Condition.noCond none).ret = none
    ∧ (wilcoxon_test extDummy exSelf "score" "size" Condition.noCond (some vS)).ret
        = none
    ∧ (paired_t_test extTDummy exSelf "score" "size" "Participant"
        Condition.noCond none).ret = none
    ∧ (paired_t_test extTDummy exSelf "score" "size" "Participant"
        Condition.noCond (some vS)).ret = none :=
  ⟨rfl, rfl, rfl, rfl⟩

/-- C4: the claim says the batched pairwise parametric test is joined on the
caller-supplied subject_col.  The code hands the external routine the string
literal Participant no matter what subject_col is: with subject_col ID, an
external routine that returns a row exactly when joined on ID yields an
empty result through paired_t_test, while the spec-described invocation on
ID yields the row. -/
theorem c4_subject_hardcoded :
    t_test_subject_arg "ID" = "Participant"
    ∧ (paired_t_test extProbe exSelf "score" "size" "ID" Condition.noCond none).df_res
        = TResTable.stat []
    ∧ extProbe exSelf.df "score" "size" "ID" = [probeRow] := by
  refine ⟨rfl, by decide, by decide⟩

/-- C9: the significance annotator is idempotent: a value that is already an
annotated display string passes through unchanged, so annotating the result
of annotation changes nothing. -/
theorem c9_idempotent :
    (∀ s : String, check_p (Val.str s) = s)
    ∧ ∀ v : Val, check_p (Val.str (check_p v)) = check_p v :=
  ⟨fun _ => rfl, fun _ => rfl⟩

/-- C10: DatasetEvaluation.replace computes the replaced series and discards
it, leaving the held dataframe unchanged for every column and mapping; in
contrast DatasetExploration.replace rewrites the column in place, shown on a
concrete dataframe and mapping. -/
theorem c10_replace_no_effect :
    (∀ (self : DatasetEvaluation) (c : String) (m : List (Val × Val)),
      (DatasetEvaluation.replace self c m).df = self.df)
    ∧ (DatasetExploration.replace exExpl "grp" [(Val.str "A", Val.str "B")]).df
        ≠ exExpl.df :=
  ⟨fun _ _ _ => rfl, by decide⟩

unseal Rat.mul Rat.add Rat.sub Rat.inv in
/-- C8 counterexample: the claim says a numeric p-value of exactly 0.05 gets
no star; the annotator's one-star category is bounded by a less-or-equal
test, so 0.05 itself receives exactly one star. -/
theorem c8_counterexample :
    starsOf (check_p (Val.num (1/20))) = 1
    ∧ starsOf (check_p (Val.num (1/20))) ≠ 0 := by
  exact ⟨by decide, by decide⟩

unseal Rat.mul Rat.add Rat.sub Rat.inv in
/-- C8 amended: the category boundaries are less-or-equal tests, so exactly
0.05 receives one star, 0.0500001 receives no star, and 0.05 minus a small
epsilon (0.0499999) receives one star. -/
theorem c8_annotator_boundary :
    starsOf (check_p (Val.num (1/20))) = 1
    ∧ starsOf (check_p (Val.num (500001/10000000))) = 0
    ∧ starsOf (check_p (Val.num (499999/10000000))) = 1 := by
  exact ⟨by decide, by decide, by decide⟩

/-- C7: in the parametric variant the standardized mean difference is negated
exactly when the baseline is the first member (column A) of a returned pair
and kept unnegated when the baseline is the second member, so with the
external convention rawD equal to the mean difference of column A minus
column B over a positive scale, the reported value is positive exactly when
the non-baseline group mean exceeds the baseline group mean in both cases. -/
theorem c7_effect_size_sign (b g : Val) (mb mg s : ℚ)
    (hg : g ≠ b) (hs : 0 < s) :
    t_row_d b b ((mb - mg) / s) = -((mb - mg) / s)
    ∧ t_row_d b g ((mg - mb) / s) = (mg - mb) / s
    ∧ (0 < t_row_d b b ((mb - mg) / s) ↔ mb < mg)
    ∧ (0 < t_row_d b g ((mg - mb) / s) ↔ mb < mg) := by
  have h1 : t_row_d b b ((mb - mg) / s) = -((mb - mg) / s) := by
    simp [t_row_d]
  have h2 : t_row_d b g ((mg - mb) / s) = (mg - mb) / s := by
    simp [t_row_d, hg]
  refine ⟨h1, h2, ?_, ?_⟩
  · rw [h1, ← neg_div, neg_sub, lt_div_iff₀ hs, zero_mul, sub_pos]
  · rw [h2, lt_div_iff₀ hs, zero_mul, sub_pos]

/-- C7 witness: the sign convention evaluated at baseline mean 1, other mean
2 and scale 1. -/
theorem c7_effect_size_sign_witness :
    t_row_d (Val.str "base") (Val.str "base") (((1 : ℚ) - 2) / 1)
      = -(((1 : ℚ) - 2) / 1)
    ∧ t_row_d (Val.str "base") (Val.str "g") (((2 : ℚ) - 1) / 1) = ((2 : ℚ) - 1) / 1
    ∧ (0 < t_row_d (Val.str "base") (Val.str "base") (((1 : ℚ) - 2) / 1)
        ↔ (1 : ℚ) < 2)
    ∧ (0 < t_row_d (Val.str "base") (Val.str "g") (((2 : ℚ) - 1) / 1)
        ↔ (1 : ℚ) < 2) :=
  c7_effect_size_sign (Val.str "base") (Val.str "g") 1 2 1 (by decide) (by norm_num)

/-- C6: the Bonferroni corrector computes min of raw p times family size and
one; it never exceeds one, is the identity at family size one for p-values in
the unit interval, and the family size the baseline branch passes (length of
the reordered group list minus one) equals the number of pairs actually
tested in that call. -/
theorem c6_bonferroni (p : ℚ) (num : ℕ) (groups : List Val) (b : Val)
    (h0 : 0 ≤ p) (h1 : p ≤ 1) (hnd : groups.Nodup) (hb : b ∈ groups) :
    apply_bonferroni p num = min (p * (num : ℚ)) 1
    ∧ apply_bonferroni p num ≤ 1
    ∧ apply_bonferroni p 1 = p
    ∧ (movedToEnd groups b).length - 1
        = (survivors (toCompare (movedToEnd groups b)) b).length := by
  refine ⟨rfl, min_le_right _ _, ?_, ?_⟩
  · show min (p * ((1 : ℕ) : ℚ)) 1 = p
    rw [Nat.cast_one, mul_one]
    exact min_eq_left h1
  · have hpos : 1 ≤ groups.length := List.length_pos.mpr (List.ne_nil_of_mem hb)
    rw [survivors_toCompare_movedToEnd groups b hnd, List.length_map,
      length_filter_ne b groups hnd hb, movedToEnd, List.length_append,
      length_filter_ne b groups hnd hb]
    simp only [List.length_singleton]
    omega

/-- C6 witness: the corrector evaluated at p one half with family size three,
and the baseline family size identity on the two groups S and M with
baseline S. -/
theorem c6_bonferroni_witness :
    apply_bonferroni (1/2) 3 = min ((1/2 : ℚ) * ((3 : ℕ) : ℚ)) 1
    ∧ apply_bonferroni (1/2) 3 ≤ 1
    ∧ apply_bonferroni (1/2) 1 = 1/2
    ∧ (movedToEnd [vS, vM] vS).length - 1
        = (survivors (toCompare (movedToEnd [vS, vM] vS)) vS).length :=
  c6_bonferroni (1/2) 3 [vS, vM] vS (by norm_num) (by norm_num) (by decide)
    (by decide)

/-- C5: with a duplicate-free group enumeration of n groups, the no-baseline
call tests exactly n times n minus one over two pairs (the row count of the
assembled flat table), and with a baseline among the groups the surviving
pair list is exactly each non-baseline group paired with the baseline, hence
n minus one pairs and never the pair baseline-baseline. -/
theorem c5_pair_enumeration (ext : List Val → List Val → WStats)
    (self : DatasetEvaluation) (value_col group_col : String)
    (condition : Condition) (b : Val)
    (hnd : (ordered_values self group_col).Nodup)
    (hb : b ∈ ordered_values self group_col) :
    (tableA (wilcoxon_test ext self value_col group_col condition none).df_res).length
      = (ordered_values self group_col).length
          * ((ordered_values self group_col).length - 1) / 2
    ∧ survivors (toCompare (movedToEnd (ordered_values self group_col) b)) b
        = ((ordered_values self group_col).filter (fun x => x != b)).map
            (fun g => (g, b))
    ∧ (survivors (toCompare (movedToEnd (ordered_values self group_col) b)) b).length
        = (ordered_values self group_col).length - 1
    ∧ (b, b) ∉ survivors (toCompare (movedToEnd (ordered_values self group_col) b)) b := by
  have hA : tableA (wilcoxon_test ext self value_col group_col condition none).df_res
      = (toCompare (ordered_values self group_col)).map (fun pr => pr.1) := rfl
  have hsurv := survivors_toCompare_movedToEnd (ordered_values self group_col) b hnd
  refine ⟨?_, hsurv, ?_, ?_⟩
  · rw [hA, List.length_map]
    have h2 := two_mul_length_allPairsLt (ordered_values self group_col)
    rw [← toCompare_eq_allPairsLt _ hnd] at h2
    rw [← h2]
    exact (Nat.mul_div_cancel_left _ (by norm_num)).symm
  · rw [hsurv, List.length_map, length_filter_ne b _ hnd hb]
  · rw [hsurv]
    intro hmem
    rcases List.mem_map.mp hmem with ⟨g, hg, hpair⟩
    have hgb : g = b := congrArg Prod.fst hpair
    subst hgb
    exact not_mem_filter_ne_self _ g hg

/-- C5 witness: the pair counts evaluated on a dataset with the three groups
S, M, L and baseline S: three rows without a baseline, two surviving pairs
with it. -/
theorem c5_pair_enumeration_witness :
    (tableA (wilcoxon_test extDummy exSelf5 "score" "size"
        Condition.noCond none).df_res).length
      = (ordered_values exSelf5 "size").length
          * ((ordered_values exSelf5 "size").length - 1) / 2
    ∧ survivors (toCompare (movedToEnd (ordered_values exSelf5 "size") vS)) vS
        = ((ordered_values exSelf5 "size").filter (fun x => x != vS)).map
            (fun g => (g, vS))
    ∧ (survivors (toCompare (movedToEnd (ordered_values exSelf5 "size") vS)) vS).length
        = (ordered_values exSelf5 "size").length - 1
    ∧ (vS, vS) ∉ survivors (toCompare (movedToEnd (ordered_values exSelf5 "size") vS)) vS :=
  c5_pair_enumeration extDummy exSelf5 "score" "size" Condition.noCond vS
    (by decide) (by decide)

/-- C2 counterexample: the claim says a baseline value absent from the groups
leads to every pair being discarded and an empty result table.  With groups S
and M and absent baseline X, the surviving pair list is the nonempty list of
both groups paired with X, and the assembled by-group table carries four
entries under S and four under M rather than being empty. -/
theorem c2_counterexample :
    survivors (toCompare (movedToEnd [vS, vM] vX)) vX = [(vS, vX), (vM, vX)]
    ∧ survivors (toCompare (movedToEnd [vS, vM] vX)) vX ≠ []
    ∧ (byGroupEntries (wilcoxon_test extDummy exSelf "score" "size"
          Condition.noCond (some vX)).df_res).map (fun e => e.2.length)
        = [4, 4, 0] := by
  exact ⟨by decide, by decide, by decide⟩

/-- C2 amended: if the baseline equals a value not present among the n
enumerated groups, the baseline is nonetheless appended to the group list and
every group is paired against it: exactly n pairs survive the filter and are
handed to the paired test, so the pair set is not empty and the call is not a
silent empty-table success. -/
theorem c2_amended (groups : List Val) (x : Val)
    (hx : x ∉ groups) (hnd : groups.Nodup) (hne : groups ≠ []) :
    survivors (toCompare (movedToEnd groups x)) x = groups.map (fun g => (g, x))
    ∧ (survivors (toCompare (movedToEnd groups x)) x).length = groups.length
    ∧ survivors (toCompare (movedToEnd groups x)) x ≠ [] := by
  have h1 := survivors_toCompare_movedToEnd groups x hnd
  rw [filter_ne_of_not_mem x groups hx] at h1
  refine ⟨h1, by rw [h1, List.length_map], ?_⟩
  rw [h1]
  intro hcontra
  exact hne (List.map_eq_nil_iff.mp hcontra)

/-- C2 amended witness: groups S and M with absent baseline X. -/
theorem c2_amended_witness :
    survivors (toCompare (movedToEnd [vS, vM] vX)) vX
      = [vS, vM].map (fun g => (g, vX))
    ∧ (survivors (toCompare (movedToEnd [vS, vM] vX)) vX).length = [vS, vM].length
    ∧ survivors (toCompare (movedToEnd [vS, vM] vX)) vX ≠ [] :=
  c2_amended [vS, vM] vX (by decide) (by decide) (by decide)

/-- C3 counterexample: the claim says groups are enumerated in
first-occurrence order of the condition-filtered dataset.  On a dataset whose
first row the filter removes, the code enumerates B before A (first
occurrence in the unfiltered held dataframe) and the flat table's A column
starts with B, while the filtered first-occurrence order is A before B. -/
theorem c3_counterexample :
    tableA (wilcoxon_test extDummy exSelf3 "v" "grp" cond3 none).df_res = [Val.str "B"]
    ∧ specOrderedGroups exSelf3 cond3 "grp" = [Val.str "A", Val.str "B"]
    ∧ ordered_values exSelf3 "grp" ≠ specOrderedGroups exSelf3 cond3 "grp" := by
  exact ⟨by decide, by decide, by decide⟩

/-- C3 amended: when no explicit order is saved for the column, the
comparator enumerates groups as the distinct values in first-occurrence order
within the unfiltered held dataframe self.df, regardless of the condition
filter: the enumeration equals possible_values of self.df, is duplicate-free,
and contains exactly the values occurring in that column of self.df. -/
theorem c3_amended (self : DatasetEvaluation) (col : String) (v : Val)
    (h : self.order_table.lookup col = none) :
    ordered_values self col = possible_values self.df col
    ∧ (ordered_values self col).Nodup
    ∧ (v ∈ ordered_values self col ↔ v ∈ self.df.map (fun r => cellD r col)) := by
  have h1 : ordered_values self col = possible_values self.df col := by
    unfold ordered_values
    rw [h]
  refine ⟨h1, ?_, ?_⟩
  · rw [h1]
    exact uniqueFirst_nodup _
  · rw [h1]
    unfold possible_values
    exact mem_uniqueFirst v _

/-- C3 amended witness: the dataset of the counterexample, whose ordering
table is empty, with the value B. -/
theorem c3_amended_witness :
    ordered_values exSelf3 "grp" = possible_values exSelf3.df "grp"
    ∧ (ordered_values exSelf3 "grp").Nodup
    ∧ (Val.str "B" ∈ ordered_values exSelf3 "grp"
        ↔ Val.str "B" ∈ exSelf3.df.map (fun r => cellD r "grp")) :=
  c3_amended exSelf3 "grp" (Val.str "B") rfl
